import Mathlib

/-!
Shallow embedding of the divisibility traits of `src/traits.rs` from the
rayon-adaptive repository, together with theorems checking the claims of the
specification against it.

Modelling choices:
* `&[T]` and `&mut [T]` are modelled as lists of their elements (`List α`
  respectively the wrapper `MutSlice α`); slice views carry no other
  observable state than the element sequence.
* `Range<usize>` is modelled as `URange` over `Nat`; its Rust `len()`
  (through `ExactSizeIterator`) returns `end - start` for a proper range and
  `0` for an inverted one, which truncated natural subtraction reproduces.
* Rust panics (from `split_at` / `split_at_mut` on an out-of-range index)
  are modelled as `none` of an `Option` result.
-/

namespace RayonAdaptive

/-- Embedding of `std::ops::Range<usize>` as used by the impls in
`src/traits.rs`: a start bound and an end bound (named `stop` because `end`
is a Lean keyword). -/
structure URange where
  start : Nat
  stop : Nat
deriving DecidableEq, Repr

namespace URange

/-- Rust `<Range<usize> as Divisible>::base_length`, which is `self.len()`:
`end - start` for a proper range and `0` for an inverted one; truncated
natural subtraction covers both cases. -/
def base_length (r : URange) : Nat := r.stop - r.start

/-- Default method `Divisible::is_empty` from `src/traits.rs`:
`self.base_length() == 0`. -/
def is_empty (r : URange) : Bool := r.base_length == 0

/-- Rust `<Range<usize> as Divisible>::divide`: computes
`mid = self.start + self.len() / 2` and returns `(start..mid, mid..end)`. -/
def divide (r : URange) : URange × URange :=
  (⟨r.start, r.start + r.base_length / 2⟩, ⟨r.start + r.base_length / 2, r.stop⟩)

/-- Rust `<Range<usize> as DivisibleIntoBlocks>::divide_at`: returns
`(start..start + index, start + index..end)`; the source performs no bound
check on `index`. -/
def divide_at (r : URange) (index : Nat) : URange × URange :=
  (⟨r.start, r.start + index⟩, ⟨r.start + index, r.stop⟩)

/-- Default method `DivisibleIntoBlocks::cut_left_at` instantiated at ranges:
the source splits `*self` with `divide_at(index)`, writes the right part back
into `*self` and returns the left part. We return the pair
(returned left part, new value of `*self`). -/
def cut_left_at (r : URange) (index : Nat) : URange × URange :=
  r.divide_at index

/-- The sequence of indices a range denotes, used to state that a split
neither drops nor duplicates an element of the extent. -/
def toList (r : URange) : List Nat := List.range' r.start r.base_length

end URange

namespace Slice

/-- Rust `<&[T] as Divisible>::base_length`: the element count of the view. -/
def base_length (s : List α) : Nat := s.length

/-- Default method `Divisible::is_empty` at immutable slices. -/
def is_empty (s : List α) : Bool := base_length s == 0

/-- Rust `<&[T] as Divisible>::divide`: `self.split_at(self.len() / 2)`;
the midpoint is always in range so this split cannot fail. -/
def divide (s : List α) : List α × List α :=
  (s.take (s.length / 2), s.drop (s.length / 2))

/-- Rust `<&[T] as DivisibleIntoBlocks>::divide_at`: `self.split_at(index)`,
which panics when `index > self.len()`; the panic is modelled as `none`. -/
def divide_at (s : List α) (index : Nat) : Option (List α × List α) :=
  if index ≤ s.length then some (s.take index, s.drop index) else none

/-- Default method `cut_left_at` at immutable slices: it calls `divide_at`,
keeps the right part as the new `*self` and returns the left part; a panic
inside `divide_at` propagates. The result is the pair
(returned left part, new value of `*self`). -/
def cut_left_at (s : List α) (index : Nat) : Option (List α × List α) :=
  divide_at s index

end Slice

/-- Embedding of `&mut [T]`: a distinct wrapper around the element sequence,
since the mutable-slice impls in `src/traits.rs` are separate from the
immutable ones. -/
structure MutSlice (α : Type u) where
  data : List α
deriving DecidableEq, Repr

namespace MutSlice

/-- Rust `<&mut [T] as Divisible>::base_length`: the element count. -/
def base_length (m : MutSlice α) : Nat := m.data.length

/-- Default method `Divisible::is_empty` at mutable slices. -/
def is_empty (m : MutSlice α) : Bool := m.base_length == 0

/-- Rust `<&mut [T] as Divisible>::divide`:
`self.split_at_mut(self.base_length() / 2)`. -/
def divide (m : MutSlice α) : MutSlice α × MutSlice α :=
  (⟨m.data.take (m.base_length / 2)⟩, ⟨m.data.drop (m.base_length / 2)⟩)

/-- Rust `<&mut [T] as DivisibleIntoBlocks>::divide_at`:
`self.split_at_mut(index)`, which panics when `index > self.len()`; the
panic is modelled as `none`. -/
def divide_at (m : MutSlice α) (index : Nat) : Option (MutSlice α × MutSlice α) :=
  if index ≤ m.base_length then some (⟨m.data.take index⟩, ⟨m.data.drop index⟩) else none

/-- Default method `cut_left_at` at mutable slices, as the pair
(returned left part, new value of `*self`); a panic propagates. -/
def cut_left_at (m : MutSlice α) (index : Nat) : Option (MutSlice α × MutSlice α) :=
  divide_at m index

end MutSlice

/-- The `Divisible` trait of `src/traits.rs`, restricted to its two data
operations (`with_policy` only wraps the value with a policy marker and is
not needed by any claim). -/
class Divisible (α : Type u) where
  divide : α → α × α
  base_length : α → Nat

instance : Divisible (List α) where
  divide := Slice.divide
  base_length := Slice.base_length

instance : Divisible (MutSlice α) where
  divide := MutSlice.divide
  base_length := MutSlice.base_length

instance : Divisible URange where
  divide := URange.divide
  base_length := URange.base_length

/-- Modelled from the spec: the blanket `Divisible` impls for tuples of two
or three divisibles are not present under `src/` (only the spec table
describes them): `base_length` is the minimum of the component lengths and
`divide` divides each component independently, recombining the
per-component left halves into the left tuple and the right halves into the
right tuple. A Lean triple is a nested pair, so this pair instance also
yields the triple behaviour, with `min a (min b c)` as the length. -/
instance instDivisibleProd [Divisible α] [Divisible β] : Divisible (α × β) where
  divide p :=
    (((Divisible.divide p.1).1, (Divisible.divide p.2).1),
     ((Divisible.divide p.1).2, (Divisible.divide p.2).2))
  base_length p := min (Divisible.base_length p.1) (Divisible.base_length p.2)

/-- Modelled from the spec: the struct `Chunks` is built by the default
method `DivisibleIntoBlocks::chunks` in `src/traits.rs`, but its `Iterator`
implementation lives in the module `crate::chunks`, which is missing from
`src/`. Following the step algorithm of the spec: if the remaining value is
empty or the size sequence is exhausted, the iterator is finished; otherwise
the next requested size is rejected as a contract violation when it exceeds
the remaining length (modelled as `none`), and otherwise `cut_left_at`
yields the emitted chunk and shrinks the remaining value in place.
`chunks_run` drives the iterator to exhaustion on a range and collects the
emitted chunks. -/
def URange.chunks_run (r : URange) (sizes : List Nat) : Option (List URange) :=
  match sizes with
  | [] => some []
  | s :: rest =>
    if r.base_length = 0 then some []
    else if s ≤ r.base_length then
      match (r.cut_left_at s).2.chunks_run rest with
      | some cs => some ((r.cut_left_at s).1 :: cs)
      | none => none
    else none

/-- Modelled from the spec: the chunk iterator of the missing module
`crate::chunks`, instantiated at immutable slices, following the same step
algorithm as `URange.chunks_run`; a chunk here is the cut-off list of
elements, and a rejected size or a propagated panic yields `none`. -/
def Slice.chunks_run (s : List α) (sizes : List Nat) : Option (List (List α)) :=
  match sizes with
  | [] => some []
  | sz :: rest =>
    if base_length s = 0 then some []
    else if sz ≤ base_length s then
      match cut_left_at s sz with
      | some (l, s2) =>
        match chunks_run s2 rest with
        | some cs => some (l :: cs)
        | none => none
      | none => none
    else none

/-- Modelled from the spec: the chunk iterator of the missing module
`crate::chunks`, instantiated at mutable slices, following the same step
algorithm as `URange.chunks_run`. -/
def MutSlice.chunks_run (m : MutSlice α) (sizes : List Nat) : Option (List (MutSlice α)) :=
  match sizes with
  | [] => some []
  | sz :: rest =>
    if m.base_length = 0 then some []
    else if sz ≤ m.base_length then
      match m.cut_left_at sz with
      | some (l, m2) =>
        match m2.chunks_run rest with
        | some cs => some (l :: cs)
        | none => none
      | none => none
    else none

/-- Helper: the left part of a range split always has length `index`. -/
theorem URange.base_length_divide_at_left (r : URange) (k : Nat) :
    (r.divide_at k).1.base_length = k := by
  simp [URange.divide_at, URange.base_length]

/-- Helper: with a valid index the right part of a range split has the
remaining length. -/
theorem URange.base_length_divide_at_right (r : URange) (k : Nat) :
    (r.divide_at k).2.base_length = r.base_length - k := by
  simp only [URange.divide_at, URange.base_length]
  omega

/-- Helper: with a valid index the two parts of a range split cover exactly
the indices of the original range, in order. -/
theorem URange.toList_divide_at (r : URange) (k : Nat) (hk : k ≤ r.base_length) :
    (r.divide_at k).1.toList ++ (r.divide_at k).2.toList = r.toList := by
  simp only [URange.divide_at, URange.toList, URange.base_length] at hk ⊢
  have h1 : r.start + k - r.start = k := by omega
  rw [h1, List.range'_append_1]
  congr 1
  omega

/-- C1: for each built-in divisible value (immutable slice, mutable slice,
integer range) and each index between `0` and `base_length` inclusive,
`divide_at` returns a pair whose lengths sum to the original length and
whose in-order concatenation rebuilds the original value, duplicating or
dropping no element. -/
theorem divide_at_partitions {α : Type u} (s : List α) (m : MutSlice α) (r : URange)
    (i j k : Nat) (hi : i ≤ Slice.base_length s) (hj : j ≤ m.base_length)
    (hk : k ≤ r.base_length) :
    (∃ l rr, Slice.divide_at s i = some (l, rr) ∧
      Slice.base_length l + Slice.base_length rr = Slice.base_length s ∧ l ++ rr = s) ∧
    (∃ l rr, m.divide_at j = some (l, rr) ∧
      l.base_length + rr.base_length = m.base_length ∧ l.data ++ rr.data = m.data) ∧
    ((r.divide_at k).1.base_length + (r.divide_at k).2.base_length = r.base_length ∧
      (r.divide_at k).1.toList ++ (r.divide_at k).2.toList = r.toList) := by
  simp only [Slice.base_length] at hi
  simp only [MutSlice.base_length] at hj
  refine ⟨⟨s.take i, s.drop i, ?_, ?_, ?_⟩,
    ⟨⟨m.data.take j⟩, ⟨m.data.drop j⟩, ?_, ?_, ?_⟩, ?_, ?_⟩
  · simp [Slice.divide_at, hi]
  · simp only [Slice.base_length, List.length_take, List.length_drop]
    omega
  · exact s.take_append_drop i
  · simp [MutSlice.divide_at, MutSlice.base_length, hj]
  · simp only [MutSlice.base_length, List.length_take, List.length_drop]
    omega
  · exact m.data.take_append_drop j
  · rw [URange.base_length_divide_at_left, URange.base_length_divide_at_right]
    omega
  · exact r.toList_divide_at k hk

/-- Witness for C1: a three-element slice, a two-element mutable slice and
the range `2..6`, each split at a valid index. -/
theorem divide_at_partitions_witness :
    (∃ l rr, Slice.divide_at [0, 1, 2] 1 = some (l, rr) ∧
      Slice.base_length l + Slice.base_length rr = Slice.base_length [0, 1, 2] ∧
      l ++ rr = [0, 1, 2]) ∧
    (∃ l rr, MutSlice.divide_at ⟨[4, 5]⟩ 1 = some (l, rr) ∧
      l.base_length + rr.base_length = MutSlice.base_length ⟨[4, 5]⟩ ∧
      l.data ++ rr.data = MutSlice.data ⟨[4, 5]⟩) ∧
    ((URange.divide_at ⟨2, 6⟩ 2).1.base_length + (URange.divide_at ⟨2, 6⟩ 2).2.base_length
        = URange.base_length ⟨2, 6⟩ ∧
      (URange.divide_at ⟨2, 6⟩ 2).1.toList ++ (URange.divide_at ⟨2, 6⟩ 2).2.toList
        = URange.toList ⟨2, 6⟩) :=
  divide_at_partitions [0, 1, 2] ⟨[4, 5]⟩ ⟨2, 6⟩ 1 1 2 (by decide) (by decide) (by decide)

/-- C2: with a valid index, `cut_left_at(index)` returns a left part of
length `index`, leaves the value with length `old - index`, concatenating
the returned part with the new value rebuilds the original, and the returned
part and the new value are exactly the two results of `divide_at(index)`. -/
theorem cut_left_at_spec {α : Type u} (s : List α) (m : MutSlice α) (r : URange)
    (i j k : Nat) (hi : i ≤ Slice.base_length s) (hj : j ≤ m.base_length)
    (hk : k ≤ r.base_length) :
    (∃ l s2, Slice.cut_left_at s i = some (l, s2) ∧ Slice.base_length l = i ∧
      Slice.base_length s2 = Slice.base_length s - i ∧ l ++ s2 = s ∧
      Slice.divide_at s i = some (l, s2)) ∧
    (∃ l m2, m.cut_left_at j = some (l, m2) ∧ l.base_length = j ∧
      m2.base_length = m.base_length - j ∧ l.data ++ m2.data = m.data ∧
      m.divide_at j = some (l, m2)) ∧
    ((r.cut_left_at k).1.base_length = k ∧
      (r.cut_left_at k).2.base_length = r.base_length - k ∧
      (r.cut_left_at k).1.toList ++ (r.cut_left_at k).2.toList = r.toList ∧
      r.cut_left_at k = r.divide_at k) := by
  simp only [Slice.base_length] at hi
  simp only [MutSlice.base_length] at hj
  refine ⟨⟨s.take i, s.drop i, ?_, ?_, ?_, ?_, ?_⟩,
    ⟨⟨m.data.take j⟩, ⟨m.data.drop j⟩, ?_, ?_, ?_, ?_, ?_⟩, ?_, ?_, ?_, ?_⟩
  · simp [Slice.cut_left_at, Slice.divide_at, hi]
  · simp only [Slice.base_length, List.length_take]
    omega
  · simp only [Slice.base_length, List.length_drop]
  · exact s.take_append_drop i
  · simp [Slice.divide_at, hi]
  · simp [MutSlice.cut_left_at, MutSlice.divide_at, MutSlice.base_length, hj]
  · simp only [MutSlice.base_length, List.length_take]
    omega
  · simp only [MutSlice.base_length, List.length_drop]
  · exact m.data.take_append_drop j
  · simp [MutSlice.divide_at, MutSlice.base_length, hj]
  · exact r.base_length_divide_at_left k
  · exact r.base_length_divide_at_right k
  · exact r.toList_divide_at k hk
  · rfl

/-- Witness for C2 at the same concrete inputs as the C1 witness. -/
theorem cut_left_at_spec_witness :
    (∃ l s2, Slice.cut_left_at [0, 1, 2] 1 = some (l, s2) ∧ Slice.base_length l = 1 ∧
      Slice.base_length s2 = Slice.base_length [0, 1, 2] - 1 ∧ l ++ s2 = [0, 1, 2] ∧
      Slice.divide_at [0, 1, 2] 1 = some (l, s2)) ∧
    (∃ l m2, MutSlice.cut_left_at ⟨[4, 5]⟩ 1 = some (l, m2) ∧ l.base_length = 1 ∧
      m2.base_length = MutSlice.base_length ⟨[4, 5]⟩ - 1 ∧
      l.data ++ m2.data = MutSlice.data ⟨[4, 5]⟩ ∧
      MutSlice.divide_at ⟨[4, 5]⟩ 1 = some (l, m2)) ∧
    ((URange.cut_left_at ⟨2, 6⟩ 2).1.base_length = 2 ∧
      (URange.cut_left_at ⟨2, 6⟩ 2).2.base_length = URange.base_length ⟨2, 6⟩ - 2 ∧
      (URange.cut_left_at ⟨2, 6⟩ 2).1.toList ++ (URange.cut_left_at ⟨2, 6⟩ 2).2.toList
        = URange.toList ⟨2, 6⟩ ∧
      URange.cut_left_at ⟨2, 6⟩ 2 = URange.divide_at ⟨2, 6⟩ 2) :=
  cut_left_at_spec [0, 1, 2] ⟨[4, 5]⟩ ⟨2, 6⟩ 1 1 2 (by decide) (by decide) (by decide)

/-- C3 counterexample: the out-of-range index `6` on the integer range
`0..5` does not fail: `divide_at` silently returns the pair `(0..6, 6..5)`
and `cut_left_at` behaves identically, because the range impl performs no
bound check. -/
theorem range_out_of_range_returns_value :
    URange.divide_at ⟨0, 5⟩ 6 = (⟨0, 6⟩, ⟨6, 5⟩) ∧
    URange.cut_left_at ⟨0, 5⟩ 6 = (⟨0, 6⟩, ⟨6, 5⟩) ∧
    URange.base_length ⟨0, 5⟩ < 6 := by
  refine ⟨rfl, rfl, by decide⟩

/-- C3 amended: for immutable and mutable slices an out-of-range index makes
`divide_at` and `cut_left_at` panic; for integer ranges there is no bound
check: `divide_at` always returns
`(start..start + index, start + index..end)`, so an out-of-range index
silently yields an inverted, hence empty, right range. -/
theorem out_of_range_behaviour {α : Type u} (s : List α) (m : MutSlice α) (r : URange)
    (i j k : Nat) (hi : Slice.base_length s < i) (hj : m.base_length < j)
    (hk : r.base_length < k) :
    Slice.divide_at s i = none ∧ Slice.cut_left_at s i = none ∧
    m.divide_at j = none ∧ m.cut_left_at j = none ∧
    r.divide_at k = (⟨r.start, r.start + k⟩, ⟨r.start + k, r.stop⟩) ∧
    r.cut_left_at k = r.divide_at k ∧
    (r.divide_at k).2.base_length = 0 := by
  simp only [Slice.base_length] at hi
  simp only [MutSlice.base_length] at hj
  refine ⟨?_, ?_, ?_, ?_, rfl, rfl, ?_⟩
  · simp [Slice.divide_at]
    omega
  · simp [Slice.cut_left_at, Slice.divide_at]
    omega
  · simp [MutSlice.divide_at, MutSlice.base_length]
    omega
  · simp [MutSlice.cut_left_at, MutSlice.divide_at, MutSlice.base_length]
    omega
  · simp only [URange.divide_at, URange.base_length] at hk ⊢
    omega

/-- Witness for the amended C3 at concrete out-of-range indices. -/
theorem out_of_range_behaviour_witness :
    Slice.divide_at [true] 2 = none ∧ Slice.cut_left_at [true] 2 = none ∧
    MutSlice.divide_at ⟨[false]⟩ 2 = none ∧ MutSlice.cut_left_at ⟨[false]⟩ 2 = none ∧
    URange.divide_at ⟨1, 3⟩ 5 = (⟨1, 1 + 5⟩, ⟨1 + 5, 3⟩) ∧
    URange.cut_left_at ⟨1, 3⟩ 5 = URange.divide_at ⟨1, 3⟩ 5 ∧
    (URange.divide_at ⟨1, 3⟩ 5).2.base_length = 0 :=
  out_of_range_behaviour [true] ⟨[false]⟩ ⟨1, 3⟩ 2 2 5 (by decide) (by decide) (by decide)

/-- C4: for slices, mutable slices and integer ranges, `divide` coincides
with `divide_at(base_length / 2)`, so both produce results of equal
lengths; the left half gets the smaller-or-equal share when the length is
odd. -/
theorem divide_is_divide_at_midpoint {α : Type u} (s : List α) (m : MutSlice α) (r : URange) :
    Slice.divide_at s (Slice.base_length s / 2) = some (Slice.divide s) ∧
    Slice.base_length (Slice.divide s).1 ≤ Slice.base_length (Slice.divide s).2 ∧
    m.divide_at (m.base_length / 2) = some m.divide ∧
    (m.divide).1.base_length ≤ (m.divide).2.base_length ∧
    r.divide_at (r.base_length / 2) = r.divide ∧
    (r.divide).1.base_length ≤ (r.divide).2.base_length := by
  refine ⟨?_, ?_, ?_, ?_, rfl, ?_⟩
  · simp [Slice.divide_at, Slice.divide, Slice.base_length, Nat.div_le_self]
  · simp only [Slice.divide, Slice.base_length, List.length_take, List.length_drop]
    omega
  · simp [MutSlice.divide_at, MutSlice.divide, MutSlice.base_length, Nat.div_le_self]
  · simp only [MutSlice.divide, MutSlice.base_length, List.length_take, List.length_drop]
    omega
  · simp only [URange.divide, URange.base_length]
    omega

/-- C5: for a range, `base_length` is `end - start`, `divide` splits at
`start + len / 2`, and `divide_at` splits at `start + index` into two
contiguous adjacent ranges: the left result ends where the right one
starts, the left keeps the original start and the right the original end. -/
theorem range_divisible_ops (r : URange) (i : Nat) :
    r.base_length = r.stop - r.start ∧
    r.divide = (⟨r.start, r.start + r.base_length / 2⟩, ⟨r.start + r.base_length / 2, r.stop⟩) ∧
    r.divide_at i = (⟨r.start, r.start + i⟩, ⟨r.start + i, r.stop⟩) ∧
    (r.divide_at i).1.stop = (r.divide_at i).2.start ∧
    (r.divide_at i).1.start = r.start ∧ (r.divide_at i).2.stop = r.stop :=
  ⟨rfl, rfl, rfl, rfl, rfl, rfl⟩

/-- C8: dividing an empty divisible value succeeds and returns two empty
halves, for slices, mutable slices and ranges alike. -/
theorem divide_empty {α : Type u} (s : List α) (m : MutSlice α) (r : URange)
    (hs : Slice.base_length s = 0) (hm : m.base_length = 0) (hr : r.base_length = 0) :
    Slice.divide s = ([], []) ∧
    Slice.base_length (Slice.divide s).1 = 0 ∧ Slice.base_length (Slice.divide s).2 = 0 ∧
    m.divide = (⟨[]⟩, ⟨[]⟩) ∧
    (m.divide).1.base_length = 0 ∧ (m.divide).2.base_length = 0 ∧
    (r.divide).1.base_length = 0 ∧ (r.divide).2.base_length = 0 := by
  simp only [Slice.base_length] at hs
  simp only [MutSlice.base_length] at hm
  have hs0 : s = [] := List.eq_nil_of_length_eq_zero hs
  have hm0 : m.data = [] := List.eq_nil_of_length_eq_zero hm
  subst hs0
  refine ⟨by simp [Slice.divide], by simp [Slice.divide, Slice.base_length],
    by simp [Slice.divide, Slice.base_length], ?_, ?_, ?_, ?_, ?_⟩
  · simp [MutSlice.divide, MutSlice.base_length, hm0]
  · simp [MutSlice.divide, MutSlice.base_length, hm0]
  · simp [MutSlice.divide, MutSlice.base_length, hm0]
  · simp only [URange.divide, URange.base_length] at hr ⊢
    omega
  · simp only [URange.divide, URange.base_length] at hr ⊢
    omega

/-- Witness for C8: the empty slice, the empty mutable slice and the empty
range `4..4`. -/
theorem divide_empty_witness :
    Slice.divide ([] : List Nat) = ([], []) ∧
    Slice.base_length (Slice.divide ([] : List Nat)).1 = 0 ∧
    Slice.base_length (Slice.divide ([] : List Nat)).2 = 0 ∧
    MutSlice.divide (⟨[]⟩ : MutSlice Nat) = (⟨[]⟩, ⟨[]⟩) ∧
    (MutSlice.divide (⟨[]⟩ : MutSlice Nat)).1.base_length = 0 ∧
    (MutSlice.divide (⟨[]⟩ : MutSlice Nat)).2.base_length = 0 ∧
    (URange.divide ⟨4, 4⟩).1.base_length = 0 ∧
    (URange.divide ⟨4, 4⟩).2.base_length = 0 :=
  divide_empty ([] : List Nat) ⟨[]⟩ ⟨4, 4⟩ (by decide) (by decide) (by decide)

/-- C9 counterexample: for the inverted range `5..3` (a valid divisible
value of base length `0`), `divide_at` at index `base_length = 0` returns
`(5..5, 5..3)`: the left half is not the original value `5..3`, although
the claim requires `(v, empty)` with the left half equal to the original. -/
theorem divide_at_full_inverted_counterexample :
    URange.base_length ⟨5, 3⟩ = 0 ∧
    URange.divide_at ⟨5, 3⟩ (URange.base_length ⟨5, 3⟩) = (⟨5, 5⟩, ⟨5, 3⟩) ∧
    (URange.divide_at ⟨5, 3⟩ (URange.base_length ⟨5, 3⟩)).1 ≠ (⟨5, 3⟩ : URange) := by
  refine ⟨rfl, rfl, by decide⟩

/-- C9 amended: `divide_at(v, 0)` returns `(empty, v)` with the right half
equal to the original for slices, mutable slices and all ranges;
`divide_at(v, base_length v)` returns `(v, empty)` with the left half equal
to the original for slices and mutable slices always, and for ranges
provided the range is not inverted (`start ≤ end`); for an inverted range
the left half is the empty range `start..start`, which is not the original
value. -/
theorem divide_at_extremes {α : Type u} (s : List α) (m : MutSlice α) (r : URange) :
    Slice.divide_at s 0 = some ([], s) ∧
    Slice.divide_at s (Slice.base_length s) = some (s, []) ∧
    m.divide_at 0 = some (⟨[]⟩, m) ∧
    m.divide_at m.base_length = some (m, ⟨[]⟩) ∧
    r.divide_at 0 = (⟨r.start, r.start⟩, r) ∧
    (r.divide_at 0).1.base_length = 0 ∧
    (r.start ≤ r.stop →
      r.divide_at r.base_length = (r, ⟨r.stop, r.stop⟩) ∧
      (r.divide_at r.base_length).2.base_length = 0) ∧
    (r.stop < r.start →
      r.divide_at r.base_length = (⟨r.start, r.start⟩, r) ∧
      (r.divide_at r.base_length).1.base_length = 0 ∧
      (r.divide_at r.base_length).1 ≠ r) := by
  refine ⟨?_, ?_, ?_, ?_, rfl, ?_, ?_, ?_⟩
  · simp [Slice.divide_at]
  · simp [Slice.divide_at, Slice.base_length]
  · simp [MutSlice.divide_at]
  · simp [MutSlice.divide_at, MutSlice.base_length]
  · simp [URange.divide_at, URange.base_length]
  · intro h
    constructor
    · simp only [URange.divide_at, URange.base_length]
      have h1 : r.start + (r.stop - r.start) = r.stop := by omega
      rw [h1]
    · simp only [URange.divide_at, URange.base_length]
      omega
  · intro h
    have h0 : r.base_length = 0 := by
      simp only [URange.base_length]
      omega
    rw [h0]
    refine ⟨rfl, ?_, ?_⟩
    · show r.start + 0 - r.start = 0
      omega
    · intro hc
      have h2 : r.start + 0 = r.stop := congrArg URange.stop hc
      omega

/-- Witness for the amended C9: a two-element slice, a two-element mutable
slice, the proper range `2..4` and the inverted range `5..3`, discharging
both implications. -/
theorem divide_at_extremes_witness :
    Slice.divide_at [7, 8] 0 = some ([], [7, 8]) ∧
    URange.divide_at ⟨2, 4⟩ (URange.base_length ⟨2, 4⟩) = (⟨2, 4⟩, ⟨4, 4⟩) ∧
    URange.divide_at ⟨5, 3⟩ (URange.base_length ⟨5, 3⟩) = (⟨5, 5⟩, ⟨5, 3⟩) ∧
    (URange.divide_at ⟨5, 3⟩ (URange.base_length ⟨5, 3⟩)).1 ≠ (⟨5, 3⟩ : URange) :=
  ⟨(divide_at_extremes [7, 8] (⟨[7, 8]⟩ : MutSlice Nat) ⟨2, 4⟩).1,
   ((divide_at_extremes [7, 8] (⟨[7, 8]⟩ : MutSlice Nat) ⟨2, 4⟩).2.2.2.2.2.2.1
      (by decide)).1,
   ((divide_at_extremes [7, 8] (⟨[7, 8]⟩ : MutSlice Nat) ⟨5, 3⟩).2.2.2.2.2.2.2
      (by decide)).1,
   ((divide_at_extremes [7, 8] (⟨[7, 8]⟩ : MutSlice Nat) ⟨5, 3⟩).2.2.2.2.2.2.2
      (by decide)).2.2⟩

/-- C10: a range whose start is at least its end has base length `0` and is
reported empty by `is_empty`; an inverted range is treated as logically
exhausted, not as an error. -/
theorem inverted_range_is_empty (r : URange) (h : r.stop ≤ r.start) :
    r.base_length = 0 ∧ r.is_empty = true := by
  have h0 : r.base_length = 0 := by
    simp only [URange.base_length]
    omega
  exact ⟨h0, by simp [URange.is_empty, h0]⟩

/-- Witness for C10: the inverted range `7..3`. -/
theorem inverted_range_is_empty_witness :
    URange.base_length ⟨7, 3⟩ = 0 ∧ URange.is_empty ⟨7, 3⟩ = true :=
  inverted_range_is_empty ⟨7, 3⟩ (by decide)

/-- Helper: unfolding of `chunks_run` on an empty size sequence. -/
theorem URange.range_chunks_run_nil (r : URange) : r.chunks_run [] = some [] := rfl

/-- Helper: unfolding of one step of `chunks_run`. -/
theorem URange.range_chunks_run_cons (r : URange) (s : Nat) (rest : List Nat) :
    r.chunks_run (s :: rest) =
      if r.base_length = 0 then some []
      else if s ≤ r.base_length then
        match (r.cut_left_at s).2.chunks_run rest with
        | some cs => some ((r.cut_left_at s).1 :: cs)
        | none => none
      else none := rfl

/-- Helper: running the chunk iterator with positive sizes summing to the
remaining length emits chunks of exactly the requested sizes, in order, and
their concatenation covers the original range. -/
theorem URange.range_chunks_run_sound : ∀ (sizes : List Nat) (r : URange),
    (∀ s ∈ sizes, 0 < s) → sizes.sum = r.base_length →
    ∃ cs, r.chunks_run sizes = some cs ∧
      cs.map URange.base_length = sizes ∧
      (cs.map URange.toList).flatten = r.toList
  | [], r, _, hsum => by
    refine ⟨[], r.range_chunks_run_nil, rfl, ?_⟩
    simp only [List.map_nil, List.flatten_nil, URange.toList, ← hsum, List.sum_nil]
    simp
  | s :: rest, r, hpos, hsum => by
    have hs : 0 < s := hpos s (by simp)
    have hsum2 : s + rest.sum = r.base_length := by simpa using hsum
    have hne : ¬r.base_length = 0 := by omega
    have hle : s ≤ r.base_length := by omega
    have hrest : rest.sum = (r.cut_left_at s).2.base_length := by
      simp only [URange.cut_left_at, URange.divide_at, URange.base_length] at hsum2 ⊢
      omega
    obtain ⟨cs, hrun, hlen, hjoin⟩ :=
      range_chunks_run_sound rest (r.cut_left_at s).2 (fun x hx => hpos x (by simp [hx])) hrest
    refine ⟨(r.cut_left_at s).1 :: cs, ?_, ?_, ?_⟩
    · rw [r.range_chunks_run_cons, if_neg hne, if_pos hle, hrun]
    · simp only [List.map_cons, hlen]
      rw [URange.cut_left_at, r.base_length_divide_at_left]
    · simp only [List.map_cons, List.flatten_cons, hjoin, URange.cut_left_at]
      exact r.toList_divide_at s hle

/-- Helper: unfolding of `Slice.chunks_run` on an empty size sequence. -/
theorem Slice.slice_chunks_run_nil (s : List α) : Slice.chunks_run s [] = some [] := rfl

/-- Helper: unfolding of one step of `Slice.chunks_run`. -/
theorem Slice.slice_chunks_run_cons (s : List α) (sz : Nat) (rest : List Nat) :
    Slice.chunks_run s (sz :: rest) =
      if Slice.base_length s = 0 then some []
      else if sz ≤ Slice.base_length s then
        match Slice.cut_left_at s sz with
        | some (l, s2) =>
          match Slice.chunks_run s2 rest with
          | some cs => some (l :: cs)
          | none => none
        | none => none
      else none := rfl

/-- Helper: on an immutable slice, the chunk iterator with positive sizes
summing to the length emits chunks of exactly the requested sizes, in
order, and their concatenation rebuilds the slice. -/
theorem Slice.slice_chunks_run_sound {α : Type u} : ∀ (sizes : List Nat) (s : List α),
    (∀ x ∈ sizes, 0 < x) → sizes.sum = Slice.base_length s →
    ∃ cs, Slice.chunks_run s sizes = some cs ∧
      cs.map Slice.base_length = sizes ∧ cs.flatten = s
  | [], s, _, hsum => by
    have h0 : s = [] := by
      simp only [Slice.base_length, List.sum_nil] at hsum
      exact List.eq_nil_of_length_eq_zero hsum.symm
    exact ⟨[], rfl, rfl, by simp [h0]⟩
  | sz :: rest, s, hpos, hsum => by
    have hs : 0 < sz := hpos sz (by simp)
    simp only [Slice.base_length, List.sum_cons] at hsum
    have hne : ¬Slice.base_length s = 0 := by
      simp only [Slice.base_length]
      omega
    have hle : sz ≤ Slice.base_length s := by
      simp only [Slice.base_length]
      omega
    have hle2 : sz ≤ s.length := hle
    have hcut : Slice.cut_left_at s sz = some (s.take sz, s.drop sz) := by
      simp [Slice.cut_left_at, Slice.divide_at, hle2]
    have hrest : rest.sum = Slice.base_length (s.drop sz) := by
      simp only [Slice.base_length, List.length_drop]
      omega
    obtain ⟨cs, hrun, hlen, hflat⟩ :=
      slice_chunks_run_sound rest (s.drop sz) (fun x hx => hpos x (by simp [hx])) hrest
    refine ⟨s.take sz :: cs, ?_, ?_, ?_⟩
    · rw [Slice.slice_chunks_run_cons, if_neg hne, if_pos hle, hcut]
      show (match Slice.chunks_run (s.drop sz) rest with
        | some cs => some (s.take sz :: cs)
        | none => none) = some (s.take sz :: cs)
      rw [hrun]
    · simp only [List.map_cons, hlen, Slice.base_length, List.length_take]
      congr 1
      omega
    · simp only [List.flatten_cons, hflat]
      exact s.take_append_drop sz

/-- Helper: unfolding of `MutSlice.chunks_run` on an empty size sequence. -/
theorem MutSlice.mut_chunks_run_nil (m : MutSlice α) : m.chunks_run [] = some [] := rfl

/-- Helper: unfolding of one step of `MutSlice.chunks_run`. -/
theorem MutSlice.mut_chunks_run_cons (m : MutSlice α) (sz : Nat) (rest : List Nat) :
    m.chunks_run (sz :: rest) =
      if m.base_length = 0 then some []
      else if sz ≤ m.base_length then
        match m.cut_left_at sz with
        | some (l, m2) =>
          match m2.chunks_run rest with
          | some cs => some (l :: cs)
          | none => none
        | none => none
      else none := rfl

/-- Helper: on a mutable slice, the chunk iterator with positive sizes
summing to the length emits chunks of exactly the requested sizes, in
order, and their concatenation rebuilds the element sequence. -/
theorem MutSlice.mut_chunks_run_sound {α : Type u} : ∀ (sizes : List Nat) (m : MutSlice α),
    (∀ x ∈ sizes, 0 < x) → sizes.sum = m.base_length →
    ∃ cs, m.chunks_run sizes = some cs ∧
      cs.map MutSlice.base_length = sizes ∧ (cs.map MutSlice.data).flatten = m.data
  | [], m, _, hsum => by
    have h0 : m.data = [] := by
      simp only [MutSlice.base_length, List.sum_nil] at hsum
      exact List.eq_nil_of_length_eq_zero hsum.symm
    exact ⟨[], rfl, rfl, by simp [h0]⟩
  | sz :: rest, m, hpos, hsum => by
    have hs : 0 < sz := hpos sz (by simp)
    simp only [MutSlice.base_length, List.sum_cons] at hsum
    have hne : ¬m.base_length = 0 := by
      simp only [MutSlice.base_length]
      omega
    have hle : sz ≤ m.base_length := by
      simp only [MutSlice.base_length]
      omega
    have hcut : m.cut_left_at sz = some (⟨m.data.take sz⟩, ⟨m.data.drop sz⟩) := by
      simp [MutSlice.cut_left_at, MutSlice.divide_at, hle]
    have hrest : rest.sum = MutSlice.base_length ⟨m.data.drop sz⟩ := by
      simp only [MutSlice.base_length, List.length_drop]
      omega
    obtain ⟨cs, hrun, hlen, hflat⟩ :=
      mut_chunks_run_sound rest ⟨m.data.drop sz⟩ (fun x hx => hpos x (by simp [hx])) hrest
    refine ⟨⟨m.data.take sz⟩ :: cs, ?_, ?_, ?_⟩
    · rw [m.mut_chunks_run_cons, if_neg hne, if_pos hle, hcut]
      show (match MutSlice.chunks_run ⟨m.data.drop sz⟩ rest with
        | some cs => some ((⟨m.data.take sz⟩ : MutSlice α) :: cs)
        | none => none) = some ((⟨m.data.take sz⟩ : MutSlice α) :: cs)
      rw [hrun]
    · simp only [List.map_cons, hlen, MutSlice.base_length, List.length_take]
      congr 1
      omega
    · simp only [List.map_cons, List.flatten_cons, hflat]
      exact m.data.take_append_drop sz

/-- C6 counterexample: on the range `0..2` with requested sizes `[2, 0]`
(a finite sequence summing to the base length `2`), the iterator emits the
single chunk `0..2` and then stops, because after the first cut the
remaining value is empty; the emitted lengths `[2]` therefore do not match
the requested sequence `[2, 0]`. -/
theorem chunks_zero_size_counterexample :
    List.sum [2, 0] = URange.base_length ⟨0, 2⟩ ∧
    URange.chunks_run ⟨0, 2⟩ [2, 0] = some [⟨0, 2⟩] ∧
    List.map URange.base_length [⟨0, 2⟩] ≠ [2, 0] := by decide

/-- C6 (amended): chunking the range `[0,7)` with requested sizes
`[2, 2, 3]` yields `[0,2), [2,4), [4,7)` in that order and then terminates;
in general, for a divisible value of length `N` -- an integer range, an
immutable slice or a mutable slice -- and a finite sequence of positive
sizes summing exactly to `N`, the iterator emits chunks whose lengths match
the sequence in order and whose concatenation reconstructs the original
value. Positivity is needed because a size of zero requested once the
remaining value is already exhausted emits no chunk. -/
theorem chunks_emit_requested_sizes :
    URange.chunks_run ⟨0, 7⟩ [2, 2, 3] = some [⟨0, 2⟩, ⟨2, 4⟩, ⟨4, 7⟩] ∧
    (∀ (sizes : List Nat) (r : URange), (∀ s ∈ sizes, 0 < s) →
      sizes.sum = r.base_length →
      ∃ cs, r.chunks_run sizes = some cs ∧
        cs.map URange.base_length = sizes ∧
        (cs.map URange.toList).flatten = r.toList) ∧
    (∀ (α : Type u) (sizes : List Nat) (s : List α), (∀ x ∈ sizes, 0 < x) →
      sizes.sum = Slice.base_length s →
      ∃ cs, Slice.chunks_run s sizes = some cs ∧
        cs.map Slice.base_length = sizes ∧ cs.flatten = s) ∧
    (∀ (α : Type u) (sizes : List Nat) (m : MutSlice α), (∀ x ∈ sizes, 0 < x) →
      sizes.sum = m.base_length →
      ∃ cs, m.chunks_run sizes = some cs ∧
        cs.map MutSlice.base_length = sizes ∧
        (cs.map MutSlice.data).flatten = m.data) :=
  ⟨by decide, URange.range_chunks_run_sound,
   fun _ => Slice.slice_chunks_run_sound, fun _ => MutSlice.mut_chunks_run_sound⟩

/-- Witness for C6: the range `3..6`, the slice `[10, 11, 12]` and the
mutable slice over the same elements, each chunked with sizes `[1, 2]`. -/
theorem chunks_emit_requested_sizes_witness :
    (∃ cs, URange.chunks_run ⟨3, 6⟩ [1, 2] = some cs ∧
      cs.map URange.base_length = [1, 2] ∧
      (cs.map URange.toList).flatten = URange.toList ⟨3, 6⟩) ∧
    (∃ cs, Slice.chunks_run [10, 11, 12] [1, 2] = some cs ∧
      cs.map Slice.base_length = [1, 2] ∧ cs.flatten = [10, 11, 12]) ∧
    (∃ cs, MutSlice.chunks_run ⟨[10, 11, 12]⟩ [1, 2] = some cs ∧
      cs.map MutSlice.base_length = [1, 2] ∧
      (cs.map MutSlice.data).flatten = MutSlice.data ⟨[10, 11, 12]⟩) :=
  ⟨chunks_emit_requested_sizes.{0}.2.1 [1, 2] ⟨3, 6⟩ (by decide) (by decide),
   chunks_emit_requested_sizes.{0}.2.2.1 Nat [1, 2] [10, 11, 12] (by decide) (by decide),
   chunks_emit_requested_sizes.{0}.2.2.2 Nat [1, 2] ⟨[10, 11, 12]⟩ (by decide) (by decide)⟩

/-- C7: for tuples of two or three divisibles (modelled from the spec, the
tuple impls being absent from `src/`), `base_length` is the minimum of the
component lengths and `divide` divides each component independently,
recombining the per-component left halves into the left tuple and the
per-component right halves into the right tuple; a Lean triple `(x, y, z)`
is the nested pair `(x, (y, z))`, so its length is `min a (min b c)`. -/
theorem tuple_divisible {α : Type u} {β : Type v} {γ : Type w}
    [Divisible α] [Divisible β] [Divisible γ] (x : α) (y : β) (z : γ) :
    Divisible.base_length (x, y) = min (Divisible.base_length x) (Divisible.base_length y) ∧
    Divisible.divide (x, y) =
      (((Divisible.divide x).1, (Divisible.divide y).1),
       ((Divisible.divide x).2, (Divisible.divide y).2)) ∧
    Divisible.base_length (x, y, z) =
      min (Divisible.base_length x) (min (Divisible.base_length y) (Divisible.base_length z)) ∧
    Divisible.divide (x, y, z) =
      (((Divisible.divide x).1, (Divisible.divide y).1, (Divisible.divide z).1),
       ((Divisible.divide x).2, (Divisible.divide y).2, (Divisible.divide z).2)) :=
  ⟨rfl, rfl, rfl, rfl⟩

/-- Witness for C7: a pair and a triple mixing a range, an immutable slice
and a mutable slice; the composite lengths are the minima `2` and `1`. -/
theorem tuple_divisible_witness :
    Divisible.base_length ((⟨0, 3⟩ : URange), ([true, false] : List Bool)) = 2 ∧
    Divisible.base_length
      ((⟨0, 3⟩ : URange), ([true, false] : List Bool), (⟨[5]⟩ : MutSlice Nat)) = 1 := by
  have h := tuple_divisible (⟨0, 3⟩ : URange) ([true, false] : List Bool) (⟨[5]⟩ : MutSlice Nat)
  exact ⟨by rw [h.1]; decide, by rw [h.2.2.1]; decide⟩

end RayonAdaptive
